import Mathlib

/-!
Shallow embedding of `src/rtop/src/main.rs` (an interactive terminal process
monitor) and a verification of its specification's claims.

Modelling conventions:
- Machine integers (`usize`, `u64`, pid values) are `Nat`.  The one place the
  source can underflow (`process_count - 1` on `usize`) is modelled explicitly:
  the handler returns `none` at the underflow (the overflow panic of a checked
  build; an unchecked build wraps, and either way the claimed clamp is lost).
- Floating point CPU readings (`f32`) are modelled as `Option ℚ`: `none` is a
  NaN reading, and `optCmp` is `partial_cmp`, defined exactly on non-NaN pairs,
  on which IEEE comparison is the linear order of the represented values.
- `HashMap<Pid, Process>` iteration is a `List (Pid × Process)` in iteration
  order; keys are unique in a real map, which appears as a `Nodup` hypothesis
  where a claim needs it.
- Rust's `sort_by` is a stable sort; with a comparator that is a total preorder
  (every comparator here, on non-NaN data) a stable sort's output is unique, so
  it is modelled by a stable insertion sort `sortCmpE`.  The comparator is
  fallible (`Option Ordering`) so that the `unwrap` panic of the CPU branch is
  the value `none` of the whole sort.
- The external OS is a `LiveEnv`: the set of live pids and which signals the
  platform supports.  `kill_with` returns `none` when the signal is unsupported
  (sysinfo's contract) and otherwise reports whether the kill call found the
  target.  `send_signal` additionally records the list of pids a kill was
  attempted on, so that "a signal was sent" is observable in theorems.
- The event loop body is `handleKey` (one key event) plus `App.update` (one
  resample tick); `Reaches env P` is reachability of app states when every
  sample delivered by the OS satisfies `P`.
-/

namespace Rtop

abbrev Pid := Nat

/-- The fields of `sysinfo::Process` that `main.rs` reads. -/
structure Process where
  name : String
  cpu_usage : Option ℚ
  memory : Nat
  virtual_memory : Nat
deriving DecidableEq, Repr

/-- Rust `Ord::cmp` on a linearly ordered type. -/
def cmpLin {α : Type} [LinearOrder α] (a b : α) : Ordering :=
  if a < b then Ordering.lt else if a = b then Ordering.eq else Ordering.gt

/-- Rust `PartialOrd::partial_cmp` on `f32`: defined exactly when neither
operand is NaN (`none`). -/
def optCmp (a b : Option ℚ) : Option Ordering :=
  match a, b with
  | some x, some y => some (cmpLin x y)
  | _, _ => none

/-- `enum SortBy { Cpu, Memory, Name, Pid }` from `main.rs`. -/
inductive SortBy
  | cpu
  | memory
  | name
  | pid
deriving DecidableEq, Repr

/-- `enum AppState { Main, ProcessMenu }` from `main.rs`. -/
inductive AppState
  | main
  | processMenu
deriving DecidableEq, Repr

/-- The cached `sysinfo::System` process table, in map iteration order. -/
structure System where
  processes : List (Pid × Process)
deriving DecidableEq

/-- `System::process(pid)`: lookup in the cached table. -/
def System.process (s : System) (pid : Pid) : Option Process :=
  (s.processes.find? (fun q => q.1 == pid)).map (fun q => q.2)

/-- `struct App` from `main.rs`: note `selected_process` is an `Option<usize>`
row index into the sorted view, not a process identity. -/
structure App where
  system : System
  selected_process : Option Nat
  sort_by : SortBy
  state : AppState
deriving DecidableEq

/-- The comparator each `SortBy` arm passes to `sort_by` in
`App::get_sorted_processes`.  The CPU arm is
`b.cpu_usage().partial_cmp(&a.cpu_usage()).unwrap()`: fallible, descending;
memory is descending, name and pid ascending, none with a tie-break. -/
def cmpFor : SortBy → (Pid × Process) → (Pid × Process) → Option Ordering
  | SortBy.cpu => fun a b => optCmp b.2.cpu_usage a.2.cpu_usage
  | SortBy.memory => fun a b => some (cmpLin b.2.memory a.2.memory)
  | SortBy.name => fun a b => some (cmpLin a.2.name b.2.name)
  | SortBy.pid => fun a b => some (cmpLin a.1 b.1)

/-- Stable insertion of `x` into `l` under a fallible comparator: `x` is placed
before the first element it does not strictly exceed, so earlier list elements
stay before equal later ones.  `none` models the comparator's `unwrap` panic. -/
def insertCmpE {α : Type} (cmp : α → α → Option Ordering) (x : α) : List α → Option (List α)
  | [] => some [x]
  | y :: ys =>
    match cmp x y with
    | none => none
    | some Ordering.gt => (insertCmpE cmp x ys).map (fun l => y :: l)
    | some _ => some (x :: y :: ys)

/-- Stable sort under a fallible comparator (the model of Rust's stable
`sort_by`; on total-preorder comparators every stable sort agrees). -/
def sortCmpE {α : Type} (cmp : α → α → Option Ordering) : List α → Option (List α)
  | [] => some []
  | x :: xs => (sortCmpE cmp xs).bind (insertCmpE cmp x)

/-- `App::get_sorted_processes`; `none` is the `unwrap` panic of the CPU
comparator on a NaN reading. -/
def get_sorted_processes (a : App) : Option (List (Pid × Process)) :=
  sortCmpE (cmpFor a.sort_by) a.system.processes

/-- `App::get_selected_process`: index the sorted view at the selected row.
The outer `Option` is panic propagation from the sort; the inner `Option` is
the source's bounds-checked `.get(idx)`. -/
def get_selected_process (a : App) : Option (Option (Pid × Process)) :=
  match a.selected_process with
  | none => some none
  | some idx => (get_sorted_processes a).map (fun l => l.get? idx)

/-- The four signals the kill menu can choose. -/
inductive Signal
  | interrupt
  | quit
  | term
  | kill
deriving DecidableEq, Repr

/-- The external OS at dispatch time: which pids are really alive, and which
signals the platform supports. -/
structure LiveEnv where
  live : List Pid
  supported : Signal → Bool

/-- `sysinfo::Process::kill_with`: `none` when the signal is unsupported on
the platform, otherwise whether the kill call found its target. -/
def kill_with (env : LiveEnv) (sig : Signal) (pid : Pid) : Option Bool :=
  if env.supported sig then some (env.live.contains pid) else none

/-- `App::send_signal`.  Both the selected-row resolution and the
`self.system.process(pid)` lookup read the same cached `System`; the live OS
appears only inside `kill_with`.  The returned list records each pid a
`kill_with` call was made on (so `[]` means no signal was attempted); the
`Bool` is the source's return value `kill_with(signal).is_some()`. -/
def send_signal (a : App) (env : LiveEnv) (sig : Signal) : Option (Bool × List Pid) :=
  (get_selected_process a).map (fun sel =>
    match sel with
    | some (pid, _) =>
      match a.system.process pid with
      | some _ => ((kill_with env sig pid).isSome, [pid])
      | none => (false, [])
    | none => (false, []))

/-- The key events the loop in `run_app` distinguishes. -/
inductive Key
  | q
  | down
  | up
  | c
  | m
  | n
  | p
  | k
  | esc
  | one
  | two
  | three
  | nine
  | other
deriving DecidableEq, Repr

/-- Result of handling one key: quit the loop, or continue with a new app
state and the pids signalled while handling the key. -/
inductive StepResult where
  | quit : StepResult
  | cont : App → List Pid → StepResult
deriving DecidableEq

/-- The shared shape of the `'1'`,`'2'`,`'3'`,`'9'` arms of `run_app`: only in
`ProcessMenu`, send the signal (result discarded) and return to `Main`. -/
def sigKey (a : App) (env : LiveEnv) (sig : Signal) : Option StepResult :=
  if a.state = AppState.processMenu then
    (send_signal a env sig).map (fun r => StepResult.cont { a with state := AppState.main } r.2)
  else
    some (StepResult.cont a [])

/-- One iteration of the key `match` in `run_app`.  The `Key.down` arm's
`none` branch is the `process_count - 1` underflow on an empty table. -/
def handleKey (a : App) (env : LiveEnv) : Key → Option StepResult
  | Key.q => some StepResult.quit
  | Key.down =>
    match a.selected_process with
    | none => some (StepResult.cont { a with selected_process := some 0 } [])
    | some i =>
      let process_count := a.system.processes.length
      if process_count = 0 then
        none
      else
        some (StepResult.cont
          { a with selected_process := some (if i < process_count - 1 then i + 1 else i) } [])
  | Key.up =>
    some (StepResult.cont
      { a with selected_process := a.selected_process.map (fun i => if i > 0 then i - 1 else 0) } [])
  | Key.c => some (StepResult.cont { a with sort_by := SortBy.cpu } [])
  | Key.m => some (StepResult.cont { a with sort_by := SortBy.memory } [])
  | Key.n => some (StepResult.cont { a with sort_by := SortBy.name } [])
  | Key.p => some (StepResult.cont { a with sort_by := SortBy.pid } [])
  | Key.k =>
    some (StepResult.cont
      (if a.state = AppState.main then { a with state := AppState.processMenu } else a) [])
  | Key.esc => some (StepResult.cont { a with state := AppState.main } [])
  | Key.one => sigKey a env Signal.interrupt
  | Key.nine => sigKey a env Signal.kill
  | Key.two => sigKey a env Signal.quit
  | Key.three => sigKey a env Signal.term
  | Key.other => some (StepResult.cont a [])

/-- `App::new`: the initial state around the first `System::new_all()`
sample `s`. -/
def App.new (s : System) : App :=
  { system := s
    selected_process := none
    sort_by := SortBy.cpu
    state := AppState.main }

/-- `App::update` (`refresh_all`): the tick installs a fresh OS sample,
leaving selection, sort key and UI mode untouched. -/
def App.update (a : App) (s : System) : App := { a with system := s }

/-- Reachable app states of the `run_app` loop when every sample the OS
delivers (initial and per tick) satisfies `P`. -/
inductive Reaches (env : LiveEnv) (P : System → Prop) : App → Prop where
  | init (s : System) : P s → Reaches env P (App.new s)
  | key (a a' : App) (tr : List Pid) (ev : Key) : Reaches env P a →
      handleKey a env ev = some (StepResult.cont a' tr) → Reaches env P a'
  | tick (a : App) (s : System) : P s → Reaches env P a → Reaches env P (App.update a s)

/-- `Duration::checked_sub` on millisecond counts. -/
def durCheckedSub (a b : Nat) : Option Nat :=
  if b ≤ a then some (a - b) else none

/-- The bounded-wait timeout computed at the top of each loop iteration:
`tick_rate.checked_sub(last_tick.elapsed()).unwrap_or(ZERO)`. -/
def loopTimeout (tickRate elapsed : Nat) : Nat :=
  (durCheckedSub tickRate elapsed).getD 0

/-- The order a fallible comparator imposes: `x` does not strictly exceed
`y`.  A sorted run of the stable sort is `Pairwise (notGTr cmp)`. -/
def notGTr {α : Type} (cmp : α → α → Option Ordering) (x y : α) : Prop :=
  cmp x y ≠ some Ordering.gt

/-- Element predicate under which each comparator is total and transitive:
for the CPU key, a non-NaN reading; elsewhere everything. -/
def keyP : SortBy → (Pid × Process) → Prop
  | SortBy.cpu => fun q => q.2.cpu_usage.isSome
  | SortBy.memory => fun _ => True
  | SortBy.name => fun _ => True
  | SortBy.pid => fun _ => True

/-- A live environment with no processes and all signals supported, used in
concrete scenarios. -/
def env0 : LiveEnv :=
  { live := [], supported := fun _ => true }

/-- A process with all-zero readings. -/
def proc0 : Process :=
  { name := "", cpu_usage := some 0, memory := 0, virtual_memory := 0 }

/-- A process with given CPU and memory readings. -/
def procCpu (q : ℚ) (m : Nat) : Process :=
  { name := "", cpu_usage := some q, memory := m, virtual_memory := 0 }

/-- Dispatch-race scenario: the cached sample holds pid 5 (selected, pid
sort), but `env0.live` is empty — pid 5 has already exited. -/
def appC1 : App :=
  { system := { processes := [(5, proc0)] }
    selected_process := some 0
    sort_by := SortBy.pid
    state := AppState.processMenu }

/-- High-CPU, low-memory process used in sort scenarios. -/
def pA : Process := procCpu 5 10

/-- Low-CPU, high-memory process used in sort scenarios. -/
def pB : Process := procCpu 1 50

/-- CPU sort with row 0 selected: the selected row is pid 1 (highest CPU). -/
def appC2 : App :=
  { system := { processes := [(1, pA), (2, pB)] }
    selected_process := some 0
    sort_by := SortBy.cpu
    state := AppState.main }

/-- `appC2` after the sort key changes to memory. -/
def appC2m : App := { appC2 with sort_by := SortBy.memory }

/-- Sample {1,2,3} sorted by pid with row 1 (pid 2) selected. -/
def appC31 : App :=
  { system := { processes := [(1, proc0), (2, proc0), (3, proc0)] }
    selected_process := some 1
    sort_by := SortBy.pid
    state := AppState.main }

/-- The next sample {1,3}: pid 2 exited, the stale row index 1 kept. -/
def appC32 : App :=
  { system := { processes := [(1, proc0), (3, proc0)] }
    selected_process := some 1
    sort_by := SortBy.pid
    state := AppState.main }

/-- A process reading used for the CPU tie scenario. -/
def pTie : Process := procCpu 3 0

/-- Two processes with equal CPU, inserted in descending pid order. -/
def appC4 : App :=
  { system := { processes := [(2, pTie), (1, pTie)] }
    selected_process := none
    sort_by := SortBy.cpu
    state := AppState.main }

/-- Fresh app over an empty process table (selection `None`). -/
def appEmpty : App := App.new { processes := [] }

/-- Empty table with row 0 selected: reached from `appEmpty` by one Down. -/
def appC10 : App :=
  { system := { processes := [] }
    selected_process := some 0
    sort_by := SortBy.cpu
    state := AppState.main }

/-- Kill-menu state with nothing selected, for the dispatch-outcome witness. -/
def appC6 : App :=
  { system := { processes := [] }
    selected_process := none
    sort_by := SortBy.cpu
    state := AppState.processMenu }

/-- Two-row pid-sorted table with row 0 selected, for navigation witnesses. -/
def appNav : App :=
  { system := { processes := [(1, proc0), (2, proc0)] }
    selected_process := some 0
    sort_by := SortBy.pid
    state := AppState.main }

/-- Fresh app over a one-process table. -/
def appNE : App := App.new { processes := [(1, proc0)] }

theorem cmpLin_eq_gt_iff {α : Type} [LinearOrder α] (a b : α) :
    cmpLin a b = Ordering.gt ↔ b < a := by
  unfold cmpLin
  split_ifs with h1 h2
  · simp [lt_asymm h1]
  · simp [h2, lt_irrefl]
  · simp [lt_of_le_of_ne (le_of_not_lt h1) (fun hba => h2 hba.symm)]

theorem cmpLin_ne_gt_iff {α : Type} [LinearOrder α] (a b : α) :
    cmpLin a b ≠ Ordering.gt ↔ a ≤ b := by
  rw [Ne, cmpLin_eq_gt_iff, not_lt]

theorem insertCmpE_perm {α : Type} (cmp : α → α → Option Ordering) (x : α) :
    ∀ (l l' : List α), insertCmpE cmp x l = some l' → l'.Perm (x :: l) := by
  intro l
  induction l with
  | nil =>
    intro l' h
    simp only [insertCmpE, Option.some.injEq] at h
    subst h
    exact List.Perm.refl _
  | cons y ys ih =>
    intro l' h
    rw [insertCmpE] at h
    cases hc : cmp x y with
    | none => rw [hc] at h; exact absurd h (by simp)
    | some o =>
      rw [hc] at h
      cases o with
      | lt =>
        simp only [Option.some.injEq] at h
        subst h
        exact List.Perm.refl _
      | eq =>
        simp only [Option.some.injEq] at h
        subst h
        exact List.Perm.refl _
      | gt =>
        simp only [Option.map_eq_some'] at h
        obtain ⟨t, ht, rfl⟩ := h
        exact ((ih t ht).cons y).trans (List.Perm.swap x y ys)

theorem sortCmpE_perm {α : Type} (cmp : α → α → Option Ordering) :
    ∀ (l l' : List α), sortCmpE cmp l = some l' → l'.Perm l := by
  intro l
  induction l with
  | nil =>
    intro l' h
    simp only [sortCmpE, Option.some.injEq] at h
    subst h
    exact List.Perm.refl _
  | cons x xs ih =>
    intro l' h
    rw [sortCmpE] at h
    rcases Option.bind_eq_some.mp h with ⟨t, ht, hins⟩
    exact (insertCmpE_perm cmp x t l' hins).trans ((ih t ht).cons x)

theorem insertCmpE_isSome {α : Type} (cmp : α → α → Option Ordering) (x : α) :
    ∀ l : List α, (∀ y ∈ l, (cmp x y).isSome) → (insertCmpE cmp x l).isSome := by
  intro l
  induction l with
  | nil => intro _; rw [insertCmpE]; rfl
  | cons y ys ih =>
    intro h
    rw [insertCmpE]
    cases hc : cmp x y with
    | none =>
      have := h y (List.mem_cons_self y ys)
      rw [hc] at this
      exact absurd this (by simp)
    | some o =>
      cases o with
      | lt => rfl
      | eq => rfl
      | gt =>
        have := ih (fun z hz => h z (List.mem_cons_of_mem y hz))
        rcases Option.isSome_iff_exists.mp this with ⟨t, ht⟩
        rw [ht]
        rfl

theorem sortCmpE_isSome {α : Type} (cmp : α → α → Option Ordering) :
    ∀ l : List α, (∀ a ∈ l, ∀ b ∈ l, (cmp a b).isSome) → (sortCmpE cmp l).isSome := by
  intro l
  induction l with
  | nil => intro _; rw [sortCmpE]; rfl
  | cons x xs ih =>
    intro h
    rw [sortCmpE]
    have hxs := ih (fun a ha b hb =>
      h a (List.mem_cons_of_mem x ha) b (List.mem_cons_of_mem x hb))
    rcases Option.isSome_iff_exists.mp hxs with ⟨t, ht⟩
    rw [ht, Option.some_bind]
    refine insertCmpE_isSome cmp x t (fun y hy => ?_)
    have hy' : y ∈ xs := (sortCmpE_perm cmp xs t ht).mem_iff.mp hy
    exact h x (List.mem_cons_self x xs) y (List.mem_cons_of_mem x hy')

theorem insertCmpE_pairwise {α : Type} (cmp : α → α → Option Ordering) (P : α → Prop)
    (Hanti : ∀ a b, cmp a b = some Ordering.gt → cmp b a ≠ some Ordering.gt)
    (Htrans : ∀ a b c, P a → P b → P c →
      notGTr cmp a b → notGTr cmp b c → notGTr cmp a c)
    (x : α) :
    ∀ (l l' : List α), P x → (∀ y ∈ l, P y) → l.Pairwise (notGTr cmp) →
      insertCmpE cmp x l = some l' → l'.Pairwise (notGTr cmp) := by
  intro l
  induction l with
  | nil =>
    intro l' _ _ _ h
    simp only [insertCmpE, Option.some.injEq] at h
    subst h
    exact List.pairwise_singleton _ x
  | cons y ys ih =>
    intro l' hPx hPl hpw h
    rcases List.pairwise_cons.mp hpw with ⟨hy, hys⟩
    rw [insertCmpE] at h
    cases hc : cmp x y with
    | none => rw [hc] at h; exact absurd h (by simp)
    | some o =>
      rw [hc] at h
      cases o with
      | lt =>
        simp only [Option.some.injEq] at h
        subst h
        refine List.pairwise_cons.mpr ⟨?_, hpw⟩
        intro z hz
        rcases List.mem_cons.mp hz with rfl | hz'
        · simp [notGTr, hc]
        · exact Htrans x y z hPx (hPl y (List.mem_cons_self y ys))
            (hPl z (List.mem_cons_of_mem y hz')) (by simp [notGTr, hc]) (hy z hz')
      | eq =>
        simp only [Option.some.injEq] at h
        subst h
        refine List.pairwise_cons.mpr ⟨?_, hpw⟩
        intro z hz
        rcases List.mem_cons.mp hz with rfl | hz'
        · simp [notGTr, hc]
        · exact Htrans x y z hPx (hPl y (List.mem_cons_self y ys))
            (hPl z (List.mem_cons_of_mem y hz')) (by simp [notGTr, hc]) (hy z hz')
      | gt =>
        simp only [Option.map_eq_some'] at h
        obtain ⟨t, ht, rfl⟩ := h
        have hperm := insertCmpE_perm cmp x ys t ht
        refine List.pairwise_cons.mpr ⟨?_, ?_⟩
        · intro w hw
          rcases List.mem_cons.mp (hperm.mem_iff.mp hw) with heq | hw'
          · rw [heq]; exact Hanti x y hc
          · exact hy w hw'
        · exact ih t hPx (fun z hz => hPl z (List.mem_cons_of_mem y hz)) hys ht

theorem sortCmpE_pairwise {α : Type} (cmp : α → α → Option Ordering) (P : α → Prop)
    (Hanti : ∀ a b, cmp a b = some Ordering.gt → cmp b a ≠ some Ordering.gt)
    (Htrans : ∀ a b c, P a → P b → P c →
      notGTr cmp a b → notGTr cmp b c → notGTr cmp a c) :
    ∀ (l l' : List α), (∀ y ∈ l, P y) →
      sortCmpE cmp l = some l' → l'.Pairwise (notGTr cmp) := by
  intro l
  induction l with
  | nil =>
    intro l' _ h
    simp only [sortCmpE, Option.some.injEq] at h
    subst h
    exact List.Pairwise.nil
  | cons x xs ih =>
    intro l' hPl h
    rw [sortCmpE] at h
    rcases Option.bind_eq_some.mp h with ⟨t, ht, hins⟩
    have hperm := sortCmpE_perm cmp xs t ht
    refine insertCmpE_pairwise cmp P Hanti Htrans x t l'
      (hPl x (List.mem_cons_self x xs))
      (fun z hz => hPl z (List.mem_cons_of_mem x (hperm.mem_iff.mp hz))) ?_ hins
    exact ih t (fun z hz => hPl z (List.mem_cons_of_mem x hz)) ht

theorem cmpFor_anti (s : SortBy) :
    ∀ a b, cmpFor s a b = some Ordering.gt → cmpFor s b a ≠ some Ordering.gt := by
  cases s with
  | cpu =>
    intro a b h
    cases hb : b.2.cpu_usage with
    | none => simp [cmpFor, optCmp, hb] at h
    | some y =>
      cases ha : a.2.cpu_usage with
      | none => simp [cmpFor, optCmp, hb, ha] at h
      | some x =>
        simp only [cmpFor, optCmp, hb, ha, Option.some.injEq] at h
        have hx : x < y := (cmpLin_eq_gt_iff y x).mp h
        simp only [cmpFor, optCmp, hb, ha, Ne, Option.some.injEq]
        intro hgt
        exact not_lt_of_lt hx ((cmpLin_eq_gt_iff x y).mp hgt)
  | memory =>
    intro a b h
    simp only [cmpFor, Option.some.injEq] at h
    have hx : a.2.memory < b.2.memory := (cmpLin_eq_gt_iff _ _).mp h
    simp only [cmpFor, Ne, Option.some.injEq]
    intro hgt
    exact not_lt_of_lt hx ((cmpLin_eq_gt_iff _ _).mp hgt)
  | name =>
    intro a b h
    simp only [cmpFor, Option.some.injEq] at h
    have hx : b.2.name < a.2.name := (cmpLin_eq_gt_iff _ _).mp h
    simp only [cmpFor, Ne, Option.some.injEq]
    intro hgt
    exact not_lt_of_lt hx ((cmpLin_eq_gt_iff _ _).mp hgt)
  | pid =>
    intro a b h
    simp only [cmpFor, Option.some.injEq] at h
    have hx : b.1 < a.1 := (cmpLin_eq_gt_iff _ _).mp h
    simp only [cmpFor, Ne, Option.some.injEq]
    intro hgt
    exact not_lt_of_lt hx ((cmpLin_eq_gt_iff _ _).mp hgt)

theorem cmpFor_trans (s : SortBy) :
    ∀ a b c, keyP s a → keyP s b → keyP s c →
      notGTr (cmpFor s) a b → notGTr (cmpFor s) b c → notGTr (cmpFor s) a c := by
  cases s with
  | cpu =>
    intro a b c hPa hPb hPc hab hbc
    simp only [keyP] at hPa hPb hPc
    rcases Option.isSome_iff_exists.mp hPa with ⟨x, hx⟩
    rcases Option.isSome_iff_exists.mp hPb with ⟨y, hy⟩
    rcases Option.isSome_iff_exists.mp hPc with ⟨z, hz⟩
    simp only [notGTr, cmpFor, optCmp, hx, hy, hz, Ne, Option.some.injEq] at hab hbc ⊢
    exact (cmpLin_ne_gt_iff z x).mpr
      (le_trans ((cmpLin_ne_gt_iff z y).mp hbc) ((cmpLin_ne_gt_iff y x).mp hab))
  | memory =>
    intro a b c _ _ _ hab hbc
    simp only [notGTr, cmpFor, Ne, Option.some.injEq] at hab hbc ⊢
    exact (cmpLin_ne_gt_iff _ _).mpr
      (le_trans ((cmpLin_ne_gt_iff _ _).mp hbc) ((cmpLin_ne_gt_iff _ _).mp hab))
  | name =>
    intro a b c _ _ _ hab hbc
    simp only [notGTr, cmpFor, Ne, Option.some.injEq] at hab hbc ⊢
    exact (cmpLin_ne_gt_iff _ _).mpr
      (le_trans ((cmpLin_ne_gt_iff _ _).mp hab) ((cmpLin_ne_gt_iff _ _).mp hbc))
  | pid =>
    intro a b c _ _ _ hab hbc
    simp only [notGTr, cmpFor, Ne, Option.some.injEq] at hab hbc ⊢
    exact (cmpLin_ne_gt_iff _ _).mpr
      (le_trans ((cmpLin_ne_gt_iff _ _).mp hab) ((cmpLin_ne_gt_iff _ _).mp hbc))

theorem cmpFor_tot (s : SortBy) :
    ∀ a b, keyP s a → keyP s b → (cmpFor s a b).isSome := by
  cases s with
  | cpu =>
    intro a b hPa hPb
    simp only [keyP] at hPa hPb
    rcases Option.isSome_iff_exists.mp hPa with ⟨x, hx⟩
    rcases Option.isSome_iff_exists.mp hPb with ⟨y, hy⟩
    simp [cmpFor, optCmp, hx, hy]
  | memory => intro a b _ _; rfl
  | name => intro a b _ _; rfl
  | pid => intro a b _ _; rfl

theorem keyP_all (a : App)
    (h : a.sort_by = SortBy.cpu → ∀ p ∈ a.system.processes, p.2.cpu_usage.isSome) :
    ∀ x ∈ a.system.processes, keyP a.sort_by x := by
  intro x hx
  cases hs : a.sort_by with
  | cpu => exact h hs x hx
  | memory => trivial
  | name => trivial
  | pid => trivial

theorem get_sorted_isSome (a : App)
    (h : a.sort_by = SortBy.cpu → ∀ p ∈ a.system.processes, p.2.cpu_usage.isSome) :
    (get_sorted_processes a).isSome := by
  unfold get_sorted_processes
  refine sortCmpE_isSome (cmpFor a.sort_by) a.system.processes (fun x hx y hy => ?_)
  exact cmpFor_tot a.sort_by x y (keyP_all a h x hx) (keyP_all a h y hy)

theorem send_signal_trace_len (a : App) (env : LiveEnv) (sig : Signal) :
    ∀ b l, send_signal a env sig = some (b, l) → l.length ≤ 1 := by
  intro b l h
  unfold send_signal at h
  rcases Option.map_eq_some'.mp h with ⟨sel, _, hf⟩
  cases sel with
  | none =>
    simp only at hf
    cases hf
    decide
  | some q =>
    obtain ⟨pid, p⟩ := q
    simp only at hf
    cases hl : a.system.process pid with
    | none => rw [hl] at hf; simp only at hf; cases hf; decide
    | some _ => rw [hl] at hf; simp only at hf; cases hf; simp

theorem handleKey_system (a : App) (env : LiveEnv) :
    ∀ (ky : Key) (a' : App) (tr : List Pid),
      handleKey a env ky = some (StepResult.cont a' tr) → a'.system = a.system := by
  have hsig : ∀ (sig : Signal) (a' : App) (tr : List Pid),
      sigKey a env sig = some (StepResult.cont a' tr) → a'.system = a.system := by
    intro sig a' tr h
    unfold sigKey at h
    split_ifs at h with hst
    · rcases Option.map_eq_some'.mp h with ⟨r, _, hr⟩
      cases hr
      rfl
    · simp only [Option.some.injEq, StepResult.cont.injEq] at h
      rw [← h.1]
  intro ky a' tr h
  cases ky with
  | q => exact absurd h (by rw [handleKey]; simp)
  | down =>
    rw [handleKey] at h
    cases hsel : a.selected_process with
    | none =>
      rw [hsel] at h
      simp only [Option.some.injEq, StepResult.cont.injEq] at h
      rw [← h.1]
    | some i =>
      rw [hsel] at h
      simp only at h
      by_cases hz : a.system.processes.length = 0
      · rw [if_pos hz] at h
        exact absurd h (by simp)
      · rw [if_neg hz] at h
        simp only [Option.some.injEq, StepResult.cont.injEq] at h
        rw [← h.1]
  | up =>
    rw [handleKey] at h
    simp only [Option.some.injEq, StepResult.cont.injEq] at h
    rw [← h.1]
  | c =>
    rw [handleKey] at h
    simp only [Option.some.injEq, StepResult.cont.injEq] at h
    rw [← h.1]
  | m =>
    rw [handleKey] at h
    simp only [Option.some.injEq, StepResult.cont.injEq] at h
    rw [← h.1]
  | n =>
    rw [handleKey] at h
    simp only [Option.some.injEq, StepResult.cont.injEq] at h
    rw [← h.1]
  | p =>
    rw [handleKey] at h
    simp only [Option.some.injEq, StepResult.cont.injEq] at h
    rw [← h.1]
  | k =>
    rw [handleKey] at h
    simp only [Option.some.injEq, StepResult.cont.injEq] at h
    rw [← h.1]
    split_ifs <;> rfl
  | esc =>
    rw [handleKey] at h
    simp only [Option.some.injEq, StepResult.cont.injEq] at h
    rw [← h.1]
  | one => exact hsig Signal.interrupt a' tr h
  | two => exact hsig Signal.quit a' tr h
  | three => exact hsig Signal.term a' tr h
  | nine => exact hsig Signal.kill a' tr h
  | other =>
    rw [handleKey] at h
    simp only [Option.some.injEq, StepResult.cont.injEq] at h
    rw [← h.1]

theorem reaches_ne_system (env : LiveEnv) (a : App)
    (h : Reaches env (fun s => s.processes ≠ []) a) : a.system.processes ≠ [] := by
  induction h with
  | init s hs => exact hs
  | key b b' tr ev _ hstep ih => rw [handleKey_system b env ev b' tr hstep]; exact ih
  | tick b s hs _ _ => exact hs

theorem down_isSome (a : App) (env : LiveEnv) (h : a.system.processes ≠ []) :
    (handleKey a env Key.down).isSome := by
  rw [handleKey]
  cases hsel : a.selected_process with
  | none => rfl
  | some i =>
    simp only
    have hlen : a.system.processes.length ≠ 0 := by
      intro hz
      exact h (List.length_eq_zero.mp hz)
    rw [if_neg hlen]
    rfl

/-- Claim C1, counterexample.  The claim says dispatch re-resolves the selected
pid against the live OS table and, when the cached Sample still shows the pid
but the live table lacks it, yields a not-found outcome with no signal sent.
In the code both resolution steps read the same cached `System`: here the
cached table holds pid 5 and the live table is empty, yet `send_signal`
invokes `kill_with` on pid 5 (trace `[5]`) and returns `true` (the signal is
supported), not a not-found outcome. -/
theorem c1_counterexample :
    appC1.system.process 5 = some proc0 ∧
    (5 : Pid) ∉ env0.live ∧
    send_signal appC1 env0 Signal.term = some (true, [5]) :=
  ⟨by decide, by decide, by decide⟩

/-- Claim C1, amended: whenever the selected row resolves in the cached sorted
view, `send_signal` looks the pid up in the same cached `System` (where it is
always found) and unconditionally invokes `kill_with` on it; the live OS table
is never consulted before signaling, and the returned flag only reports
whether the signal is supported. -/
theorem c1_dispatch_cached_only :
    ∀ (a : App) (env : LiveEnv) (sig : Signal) (pid : Pid) (p : Process),
      get_selected_process a = some (some (pid, p)) →
      ∃ q, a.system.process pid = some q ∧
        send_signal a env sig = some ((kill_with env sig pid).isSome, [pid]) := by
  intro a env sig pid p hsel0
  have hsel := hsel0
  unfold get_selected_process at hsel
  cases hs : a.selected_process with
  | none => rw [hs] at hsel; exact absurd hsel (by simp)
  | some idx =>
    rw [hs] at hsel
    rcases Option.map_eq_some'.mp hsel with ⟨l, hl, hget⟩
    have hmem : (pid, p) ∈ l := List.get?_mem hget
    have hmem' : (pid, p) ∈ a.system.processes :=
      (sortCmpE_perm (cmpFor a.sort_by) a.system.processes l hl).mem_iff.mp hmem
    have hfind : (a.system.processes.find? (fun q0 => q0.1 == pid)).isSome := by
      rw [List.find?_isSome]
      exact ⟨(pid, p), hmem', by simp⟩
    rcases Option.isSome_iff_exists.mp hfind with ⟨q0, hq0⟩
    have hproc : a.system.process pid = some q0.2 := by
      unfold System.process
      rw [hq0]
      rfl
    refine ⟨q0.2, hproc, ?_⟩
    unfold send_signal
    rw [hsel0]
    simp only [Option.map_some', hproc]

/-- Claim C1, witness for the amended theorem at the dispatch-race state. -/
theorem c1_dispatch_cached_only_witness :
    ∃ q, appC1.system.process 5 = some q ∧
      send_signal appC1 env0 Signal.term =
        some ((kill_with env0 Signal.term 5).isSome, [5]) :=
  c1_dispatch_cached_only appC1 env0 Signal.term 5 proc0 (by decide)

/-- Claim C2, counterexample.  The claim says the selection is a process
identity surviving SetSort.  Here the selected row 0 is pid 1 under the CPU
sort; after the sort key changes to memory the (unchanged) row index 0
resolves to pid 2 — a different process. -/
theorem c2_counterexample :
    get_selected_process appC2 = some (some (1, pA)) ∧
    handleKey appC2 env0 Key.m = some (StepResult.cont appC2m []) ∧
    get_selected_process appC2m = some (some (2, pB)) :=
  ⟨by decide, by decide, by decide⟩

/-- Claim C2, amended: the selection is a row index (`Option<usize>`), not a
ProcessId; every SetSort command changes only `sort_by` and leaves the row
index (and everything else) unchanged, so the selected process becomes
whatever lands at that row in the new ordering. -/
theorem c2_setsort_keeps_row_index :
    ∀ (a : App) (env : LiveEnv),
      handleKey a env Key.c = some (StepResult.cont { a with sort_by := SortBy.cpu } []) ∧
      handleKey a env Key.m = some (StepResult.cont { a with sort_by := SortBy.memory } []) ∧
      handleKey a env Key.n = some (StepResult.cont { a with sort_by := SortBy.name } []) ∧
      handleKey a env Key.p = some (StepResult.cont { a with sort_by := SortBy.pid } []) :=
  fun _ _ => ⟨rfl, rfl, rfl, rfl⟩

/-- Claim C3, counterexample.  Sample {1,2,3} sorted by pid with row 1
selected denotes pid 2; in the next sample {1,3} (pid 2 exited) the stale row
index 1 resolves to pid 3 — a different process — rather than `None` or a
defined fallback. -/
theorem c3_counterexample :
    appC31.selected_process = some 1 ∧
    get_selected_process appC31 = some (some (2, proc0)) ∧
    appC32.selected_process = some 1 ∧
    (2, proc0) ∉ appC32.system.processes ∧
    get_selected_process appC32 = some (some (3, proc0)) :=
  ⟨rfl, by decide, rfl, by decide, by decide⟩

/-- Claim C3, amended: resolution never panics (provided the CPU sort is not
asked to compare a NaN reading): an out-of-range row index yields the defined
fallback `None` via the bounds-checked `.get`; but an in-range stale index is
resolved positionally and may denote a different process. -/
theorem c3_resolve_no_panic :
    ∀ a : App,
      (a.sort_by = SortBy.cpu → ∀ p ∈ a.system.processes, p.2.cpu_usage.isSome) →
      (get_selected_process a).isSome ∧
      (∀ i l, a.selected_process = some i → get_sorted_processes a = some l →
        l.length ≤ i → get_selected_process a = some none) := by
  intro a h
  constructor
  · unfold get_selected_process
    cases hs : a.selected_process with
    | none => rfl
    | some idx =>
      rcases Option.isSome_iff_exists.mp (get_sorted_isSome a h) with ⟨l, hl⟩
      rw [hl]
      rfl
  · intro i l hi hl hlen
    unfold get_selected_process
    rw [hi, hl]
    simp only [Option.map_some', Option.some.injEq]
    exact List.get?_eq_none.mpr hlen

/-- Claim C3, witness: resolving the stale selection of the shrunk sample
neither panics nor leaves the defined fallback path. -/
theorem c3_resolve_no_panic_witness :
    (get_selected_process appC32).isSome :=
  (c3_resolve_no_panic appC32 (fun _ => by decide)).1

/-- Claim C4, counterexample.  Two processes with equal CPU reading inserted
as [pid 2, pid 1]: the stable sort leaves the tie in insertion order [2, 1],
not in the ascending pid order [1, 2] the claim requires. -/
theorem c4_counterexample :
    pTie.cpu_usage = pTie.cpu_usage ∧
    get_sorted_processes appC4 = some [(2, pTie), (1, pTie)] ∧
    get_sorted_processes appC4 ≠ some [(1, pTie), (2, pTie)] :=
  ⟨rfl, by decide, by decide⟩

/-- Claim C4, amended: for every Sample and SortKey (with no NaN CPU reading
when sorting by CPU), the sorted view is a permutation of the Sample's
processes — equal size, no omissions, and no duplicate pids when the Sample's
pids are distinct — arranged consistently with the primary comparison
(`Pairwise (notGTr ...)`); ties keep the Sample's iteration order (the sort is
stable) and are not re-ordered by ascending ProcessId. -/
theorem c4_sorted_perm_ordered :
    ∀ a : App,
      (a.sort_by = SortBy.cpu → ∀ p ∈ a.system.processes, p.2.cpu_usage.isSome) →
      ∃ l, get_sorted_processes a = some l ∧
        l.Perm a.system.processes ∧
        l.length = a.system.processes.length ∧
        ((a.system.processes.map Prod.fst).Nodup → (l.map Prod.fst).Nodup) ∧
        l.Pairwise (notGTr (cmpFor a.sort_by)) := by
  intro a h
  rcases Option.isSome_iff_exists.mp (get_sorted_isSome a h) with ⟨l, hl⟩
  have hperm : l.Perm a.system.processes :=
    sortCmpE_perm (cmpFor a.sort_by) a.system.processes l hl
  refine ⟨l, hl, hperm, hperm.length_eq, ?_, ?_⟩
  · intro hnd
    exact (hperm.map Prod.fst).nodup_iff.mpr hnd
  · exact sortCmpE_pairwise (cmpFor a.sort_by) (keyP a.sort_by)
      (cmpFor_anti a.sort_by) (cmpFor_trans a.sort_by)
      a.system.processes l (keyP_all a h) hl

/-- Claim C4, witness at the three-process pid-sorted sample. -/
theorem c4_sorted_perm_ordered_witness :
    ∃ l, get_sorted_processes appC31 = some l ∧
      l.Perm appC31.system.processes ∧
      l.length = appC31.system.processes.length ∧
      ((appC31.system.processes.map Prod.fst).Nodup → (l.map Prod.fst).Nodup) ∧
      l.Pairwise (notGTr (cmpFor appC31.sort_by)) :=
  c4_sorted_perm_ordered appC31 (fun _ => by decide)

/-- Claim C5, counterexample.  The claim says the kill-menu command is a
no-op unless the selection resolves to a live process.  Here nothing is
selected (`None`, resolving to no process at all) and the table is empty, yet
`k` still transitions Normal → KillMenu. -/
theorem c5_counterexample :
    appEmpty.selected_process = none ∧
    get_selected_process appEmpty = some none ∧
    handleKey appEmpty env0 Key.k =
      some (StepResult.cont { appEmpty with state := AppState.processMenu } []) :=
  ⟨rfl, rfl, by decide⟩

/-- Claim C5, amended: in Normal mode the kill-menu command unconditionally
transitions the UI to KillMenu, regardless of whether the selection resolves
to a live process. -/
theorem c5_killmenu_always_opens :
    ∀ (a : App) (env : LiveEnv), a.state = AppState.main →
      handleKey a env Key.k =
        some (StepResult.cont { a with state := AppState.processMenu } []) := by
  intro a env h
  rw [handleKey, if_pos h]

/-- Claim C5, witness at the fresh empty-table app. -/
theorem c5_killmenu_always_opens_witness :
    handleKey appEmpty env0 Key.k =
      some (StepResult.cont { appEmpty with state := AppState.processMenu } []) :=
  c5_killmenu_always_opens appEmpty env0 rfl

/-- Claim C6 (confirmed): whenever a signal-choice key (`1`, `2`, `3`, `9`)
is handled in KillMenu mode, the resulting UI mode is Normal — whatever the
dispatch returned — and at most one kill call was attempted (no retry). -/
theorem c6_signal_returns_normal :
    ∀ (a : App) (env : LiveEnv) (ky : Key) (a' : App) (tr : List Pid),
      a.state = AppState.processMenu →
      (ky = Key.one ∨ ky = Key.two ∨ ky = Key.three ∨ ky = Key.nine) →
      handleKey a env ky = some (StepResult.cont a' tr) →
      a'.state = AppState.main ∧ tr.length ≤ 1 := by
  intro a env ky a' tr hst hk h
  have hsig : ∀ sig : Signal, sigKey a env sig = some (StepResult.cont a' tr) →
      a'.state = AppState.main ∧ tr.length ≤ 1 := by
    intro sig hs
    unfold sigKey at hs
    rw [if_pos hst] at hs
    rcases Option.map_eq_some'.mp hs with ⟨r, hr, hcont⟩
    obtain ⟨b, l⟩ := r
    injection hcont with h1 h2
    constructor
    · rw [← h1]
    · rw [← h2]
      exact send_signal_trace_len a env sig b l hr
  rcases hk with rfl | rfl | rfl | rfl
  · exact hsig Signal.interrupt h
  · exact hsig Signal.quit h
  · exact hsig Signal.term h
  · exact hsig Signal.kill h

/-- Claim C6, witness: `1` in the kill menu with nothing selected returns the
UI to Normal with an empty dispatch trace. -/
theorem c6_signal_returns_normal_witness :
    ({ appC6 with state := AppState.main } : App).state = AppState.main ∧
      ([] : List Pid).length ≤ 1 :=
  c6_signal_returns_normal appC6 env0 Key.one
    { appC6 with state := AppState.main } [] rfl (Or.inl rfl) (by decide)

/-- Claim C7, counterexample.  With an empty view and no selection, the claim
says Down selects the first row "if any", i.e. leaves the selection `None`.
The code sets the selection to row 0 of the empty view. -/
theorem c7_counterexample :
    get_sorted_processes appEmpty = some [] ∧
    handleKey appEmpty env0 Key.down =
      some (StepResult.cont { appEmpty with selected_process := some 0 } []) ∧
    get_selected_process { appEmpty with selected_process := some 0 } = some none :=
  ⟨by decide, by decide, by decide⟩

/-- Claim C7, amended: with a selection on row `i` of a non-empty table, Down
moves to `min (i+1) (count-1)` and Up to `i-1` clamped at 0, as claimed; with
no selection, Up is a no-op, but Down sets the selection to row 0 even when
the view is empty (rather than only "if any"). -/
theorem c7_navigation_clamp :
    ∀ (a : App) (env : LiveEnv),
      (a.selected_process = none →
        handleKey a env Key.down =
          some (StepResult.cont { a with selected_process := some 0 } []) ∧
        handleKey a env Key.up = some (StepResult.cont a [])) ∧
      (∀ i, a.selected_process = some i → i < a.system.processes.length →
        handleKey a env Key.down =
          some (StepResult.cont
            { a with selected_process := some (min (i + 1) (a.system.processes.length - 1)) } []) ∧
        handleKey a env Key.up =
          some (StepResult.cont { a with selected_process := some (i - 1) } [])) := by
  intro a env
  obtain ⟨sys, sel, sb, st⟩ := a
  constructor
  · intro hnone
    simp only at hnone
    subst hnone
    exact ⟨rfl, rfl⟩
  · intro i hsel hlt
    simp only at hsel
    subst hsel
    simp only at hlt
    have hz : sys.processes.length ≠ 0 := by omega
    constructor
    · have harith : (if i < sys.processes.length - 1 then i + 1 else i) =
          min (i + 1) (sys.processes.length - 1) := by
        split_ifs <;> omega
      rw [handleKey]
      simp only [if_neg hz, harith]
    · have harith : (if i > 0 then i - 1 else 0) = i - 1 := by
        split_ifs <;> omega
      rw [handleKey]
      simp only [Option.map_some', harith]

/-- Claim C7, witness on a two-row view with row 0 selected. -/
theorem c7_navigation_clamp_witness :
    handleKey appNav env0 Key.down =
      some (StepResult.cont
        { appNav with selected_process := some (min (0 + 1) (appNav.system.processes.length - 1)) } []) ∧
    handleKey appNav env0 Key.up =
      some (StepResult.cont { appNav with selected_process := some (0 - 1) } []) :=
  (c7_navigation_clamp appNav env0).2 0 rfl (by decide)

/-- Claim C8 (confirmed): the bounded-wait timeout is
`max 0 (tick_interval − elapsed)`: exactly zero once the elapsed time reaches
the tick interval, and the difference otherwise; `checked_sub` makes the
subtraction total. -/
theorem c8_timeout_max :
    ∀ tickRate elapsed : Nat,
      ((loopTimeout tickRate elapsed : ℤ) =
        max 0 ((tickRate : ℤ) - (elapsed : ℤ))) ∧
      (tickRate ≤ elapsed → loopTimeout tickRate elapsed = 0) ∧
      (elapsed ≤ tickRate → loopTimeout tickRate elapsed = tickRate - elapsed) := by
  intro t e
  unfold loopTimeout durCheckedSub
  by_cases h : e ≤ t
  · rw [if_pos h]
    simp only [Option.getD_some]
    refine ⟨?_, ?_, fun _ => trivial⟩
    · rw [max_eq_right (by omega : (0 : ℤ) ≤ (t : ℤ) - (e : ℤ))]
      omega
    · intro hte
      omega
  · rw [if_neg h]
    simp only [Option.getD_none]
    refine ⟨?_, fun _ => trivial, ?_⟩
    · rw [max_eq_left (by omega : (t : ℤ) - (e : ℤ) ≤ 0)]
      omega
    · intro het
      exact absurd het h

/-- Claim C8, witness: an overdue tick gives timeout 0; an early poll gives
the remaining time. -/
theorem c8_timeout_max_witness :
    loopTimeout 250 300 = 0 ∧ loopTimeout 250 100 = 150 :=
  ⟨(c8_timeout_max 250 300).2.1 (by decide),
   ((c8_timeout_max 250 100).2.2 (by decide)).trans (by decide)⟩

/-- Claim C9 (confirmed): when no process carries a NaN CPU reading, the CPU
sort's fallible comparator always succeeds, so the sort never reaches the
`unwrap` panic (the whole sort is `isSome`). -/
theorem c9_cpu_sort_no_panic :
    ∀ a : App, a.sort_by = SortBy.cpu →
      (∀ p ∈ a.system.processes, p.2.cpu_usage.isSome) →
      (get_sorted_processes a).isSome :=
  fun a _ h2 => get_sorted_isSome a (fun _ => h2)

/-- Claim C9, witness at the two-process CPU-sorted sample. -/
theorem c9_cpu_sort_no_panic_witness :
    (get_sorted_processes appC2).isSome :=
  c9_cpu_sort_no_panic appC2 rfl (by decide)

/-- Claim C10, counterexample.  The claimed invariant — a `Some` selection
implies a non-empty table — fails on reachable states: from a start over an
empty sample, one Down selects row 0 while the table is still empty, and the
next Down evaluates `process_count - 1` with `process_count = 0`, the
underflow (`none`). -/
theorem c10_counterexample :
    Reaches env0 (fun _ => True) appC10 ∧
    appC10.selected_process = some 0 ∧
    appC10.system.processes = [] ∧
    handleKey appC10 env0 Key.down = none := by
  refine ⟨?_, rfl, rfl, by decide⟩
  exact Reaches.key (App.new { processes := [] }) appC10 [] Key.down
    (Reaches.init { processes := [] } trivial) (by decide)

/-- Claim C10, amended: provided every sample the OS delivers is non-empty
(as a real process enumeration is, the monitor itself being listed), every
reachable state has a non-empty table, and handling Down never reaches the
`process_count - 1` underflow. -/
theorem c10_down_no_underflow :
    ∀ (env : LiveEnv) (a : App),
      Reaches env (fun s => s.processes ≠ []) a →
      a.system.processes ≠ [] ∧ (handleKey a env Key.down).isSome := by
  intro env a h
  have hne := reaches_ne_system env a h
  exact ⟨hne, down_isSome a env hne⟩

/-- Claim C10, witness at a freshly started app over a one-process sample. -/
theorem c10_down_no_underflow_witness :
    appNE.system.processes ≠ [] ∧ (handleKey appNE env0 Key.down).isSome :=
  c10_down_no_underflow env0 appNE
    (Reaches.init { processes := [(1, proc0)] } (by decide))

end Rtop
